import Mathlib

/-!
# Verification of the Company Knowledge Worker core

Shallow embedding of the core components of the repository
(`src/document_loader.py`, `src/improved_rag.py`, `src/config.py`):
the path classifier, the corpus builder, the chunk-count cap and the
diversity-aware retriever, together with theorems settling the spec's
claims about them.

Machine text is modelled as `String` / `List Char`; the external
similarity index is a function parameter; the filesystem is a list of
files with path segments, byte size and extracted text content.
-/

namespace KnowledgeWorker

/-- Bool test: `needle` occurs as a contiguous substring of `hay`
(Python's `in` operator on strings). -/
def containsSub (hay needle : List Char) : Bool :=
  hay.tails.any (fun t => needle.isPrefixOf t)

/-- Lower-case a character sequence (Python `str.lower()`, ASCII). -/
def lowerChars (cs : List Char) : List Char := cs.map Char.toLower

/-- A stored document/passage.  `project` is `none` when the metadata key
is absent (`doc.metadata.get('project')` returning `None`). -/
structure Doc where
  content : String
  project : Option String
  deriving DecidableEq, Repr

/-- `improved_rag.py` line 81: the fixed diversity intent phrases. -/
def project_keywords : List String :=
  ["projects", "working on", "current projects", "all projects"]

/-- `improved_rag.py` line 82: `any(keyword in query.lower() for keyword in project_keywords)`. -/
def is_project_query (query : String) : Bool :=
  project_keywords.any (fun kw => containsSub (lowerChars query.toList) kw.toList)

/-- The label under which a candidate is grouped in
`_get_diverse_project_documents` (lines 100–105): the Python test
`if project and project != 'Unknown'` groups a candidate iff its
`project` metadata is present, truthy (non-empty), and differs from
`"Unknown"`; otherwise the candidate goes to `other_docs`. -/
def groupLabel (d : Doc) : Option String :=
  d.project.bind (fun p => if p = "" ∨ p = "Unknown" then none else some p)

/-- Worker for `groupedLabels`: collect labels not seen yet, left to right. -/
def groupedLabelsGo (seen : List String) : List Doc → List String
  | [] => []
  | d :: rest =>
    match groupLabel d with
    | some p => if p ∈ seen then groupedLabelsGo seen rest
                else p :: groupedLabelsGo (p :: seen) rest
    | none => groupedLabelsGo seen rest

/-- The distinct group labels of the candidate list in first-occurrence
order — the key order of the Python `defaultdict(list)` built at
lines 97–105 (insertion ordered). -/
def groupedLabels (cands : List Doc) : List String :=
  groupedLabelsGo [] cands

/-- The group of a label: all candidates carrying that label, in
similarity order (the list appended to `project_groups[project]`). -/
def groupOf (cands : List Doc) (p : String) : List Doc :=
  cands.filter (fun d => groupLabel d = some p)

/-- `other_docs` (lines 104–105): candidates with absent or `"Unknown"`
project metadata, in similarity order. -/
def otherDocs (cands : List Doc) : List Doc :=
  cands.filter (fun d => groupLabel d = none)

/-- The grouped part of the selection (lines 110–112): up to 4 documents
from each project group, groups in first-occurrence order. -/
def selectedGrouped (cands : List Doc) : List Doc :=
  ((groupedLabels cands).map (fun p => (groupOf cands p).take 4)).flatten

/-- `_get_diverse_project_documents` minus the similarity call
(lines 96–118): group by project, take up to 4 per group, append up to 5
ungrouped candidates, truncate to 25. -/
def diverseSelect (cands : List Doc) : List Doc :=
  (selectedGrouped cands ++ (otherDocs cands).take 5).take 25

/-- `_get_diverse_project_documents` (lines 90–118), with the external
`similarity_search` primitive passed as a function parameter. -/
def get_diverse_project_documents (sim : String → Nat → List Doc)
    (base_k : Nat) (query : String) : List Doc :=
  diverseSelect (sim query base_k)

/-- `_get_relevant_documents` (lines 75–88): broad mode on an intent
match, otherwise plain similarity search with `k = min(base_k, 25)`. -/
def get_relevant_documents (sim : String → Nat → List Doc)
    (base_k : Nat) (query : String) : List Doc :=
  if is_project_query query then get_diverse_project_documents sim base_k query
  else sim query (min base_k 25)

/-- The retriever as constructed at line 120: `base_k = 30`. -/
def enhancedRetrieve (sim : String → Nat → List Doc) (query : String) : List Doc :=
  get_relevant_documents sim 30 query

/-- Narrow mode as the spec words it: return
`similarity_search(query, min(k, cap))` unchanged. -/
def narrowModeSpec (sim : String → Nat → List Doc) (k cap : Nat)
    (query : String) : List Doc :=
  sim query (min k cap)

/-- The scenario candidate set of the spec: 30 candidates spanning 6
distinct projects of 5 candidates each. -/
def scenario30 : List Doc :=
  (List.range 6).flatMap (fun i =>
    (List.range 5).map (fun j =>
      ⟨toString i ++ "-" ++ toString j, some ("P" ++ toString i)⟩))

/-- A trivial similarity primitive used to instantiate witnesses. -/
def demoSim : String → Nat → List Doc :=
  fun _ n => (List.range n).map (fun i => ⟨toString i, none⟩)

lemma groupLabel_ne_unknown {d : Doc} {p : String} (h : groupLabel d = some p) :
    d.project = some p ∧ p ≠ "" ∧ p ≠ "Unknown" := by
  cases hd : d.project with
  | none => simp [groupLabel, hd] at h
  | some q =>
    have hgl : groupLabel d = (if q = "" ∨ q = "Unknown" then none else some q) := by
      unfold groupLabel
      rw [hd]
      rfl
    rw [hgl] at h
    by_cases hq : q = "" ∨ q = "Unknown"
    · rw [if_pos hq] at h
      exact absurd h (by simp)
    · rw [if_neg hq] at h
      cases Option.some.inj h
      push_neg at hq
      exact ⟨rfl, hq⟩

lemma groupedLabelsGo_spec (cands : List Doc) :
    ∀ seen : List String, (groupedLabelsGo seen cands).Nodup ∧
      ∀ p ∈ groupedLabelsGo seen cands,
        p ∉ seen ∧ ∃ d ∈ cands, groupLabel d = some p := by
  induction cands with
  | nil => intro seen; simp [groupedLabelsGo]
  | cons d rest ih =>
    intro seen
    cases hd : groupLabel d with
    | none =>
      simp only [groupedLabelsGo, hd]
      refine ⟨(ih seen).1, fun p hp => ?_⟩
      obtain ⟨hns, d', hd', hl⟩ := (ih seen).2 p hp
      exact ⟨hns, d', List.mem_cons_of_mem d hd', hl⟩
    | some q =>
      by_cases hq : q ∈ seen
      · simp only [groupedLabelsGo, hd, if_pos hq]
        refine ⟨(ih seen).1, fun p hp => ?_⟩
        obtain ⟨hns, d', hd', hl⟩ := (ih seen).2 p hp
        exact ⟨hns, d', List.mem_cons_of_mem d hd', hl⟩
      · simp only [groupedLabelsGo, hd, if_neg hq]
        constructor
        · refine List.nodup_cons.mpr ⟨fun hmem => ?_, (ih (q :: seen)).1⟩
          exact ((ih (q :: seen)).2 q hmem).1 (List.mem_cons_self q seen)
        · intro p hp
          rcases List.mem_cons.mp hp with rfl | hp'
          · exact ⟨hq, d, List.mem_cons_self d rest, hd⟩
          · obtain ⟨hns, d', hd', hl⟩ := (ih (q :: seen)).2 p hp'
            exact ⟨fun hs => hns (List.mem_cons_of_mem q hs), d',
              List.mem_cons_of_mem d hd', hl⟩

lemma groupedLabels_nodup (cands : List Doc) : (groupedLabels cands).Nodup :=
  (groupedLabelsGo_spec cands []).1

lemma mem_groupedLabels {cands : List Doc} {p : String}
    (h : p ∈ groupedLabels cands) : ∃ d ∈ cands, groupLabel d = some p :=
  ((groupedLabelsGo_spec cands []).2 p h).2

lemma mem_groupOf {cands : List Doc} {p : String} {d : Doc}
    (h : d ∈ groupOf cands p) : groupLabel d = some p := by
  have := (List.mem_filter.mp h).2
  exact of_decide_eq_true this

lemma mem_otherDocs {cands : List Doc} {d : Doc}
    (h : d ∈ otherDocs cands) : groupLabel d = none := by
  have := (List.mem_filter.mp h).2
  exact of_decide_eq_true this

/-- Any document appearing in the per-group selection carries a present,
non-empty, non-`"Unknown"` project label. -/
lemma mem_selectedGrouped {cands : List Doc} {d : Doc}
    (h : d ∈ selectedGrouped cands) :
    ∃ p, d.project = some p ∧ p ≠ "" ∧ p ≠ "Unknown" := by
  obtain ⟨block, hblock, hd⟩ := List.mem_flatten.mp h
  obtain ⟨q, _, rfl⟩ := List.mem_map.mp hblock
  have : d ∈ groupOf cands q := List.take_subset 4 _ hd
  exact ⟨q, groupLabel_ne_unknown (mem_groupOf this)⟩

/-- Helper: a sum of mapped values is at most `b` when at most one list
element (there at most once) contributes at most `b` and the rest
contribute zero. -/
lemma sum_map_le_of_unique {labels : List String} (f : String → Nat)
    (p : String) (b : Nat) (hnd : labels.Nodup)
    (h0 : ∀ q ∈ labels, q ≠ p → f q = 0) (hp : f p ≤ b) :
    (labels.map f).sum ≤ b := by
  induction labels with
  | nil => simp
  | cons q rest ih =>
    have hnd' := List.nodup_cons.mp hnd
    by_cases hq : q = p
    · subst hq
      have hzero : (rest.map f).sum = 0 := by
        apply List.sum_eq_zero
        intro x hx
        obtain ⟨r, hr, rfl⟩ := List.mem_map.mp hx
        exact h0 r (List.mem_cons_of_mem q hr) (fun hrp => hnd'.1 (hrp ▸ hr))
      simpa [hzero] using hp
    · have := ih hnd'.2 (fun r hr => h0 r (List.mem_cons_of_mem q hr))
      simpa [h0 q (List.mem_cons_self q rest) hq] using this

/-- Per-label cap inside the diversity selection: at most 4 result items
carry any given present, non-empty, non-`"Unknown"` project label
(empty and `"Unknown"` labels are routed to `other_docs` by the code's
truthiness test and fall under the ungrouped quota instead). -/
lemma diverseSelect_countP_le (cands : List Doc) (p : String)
    (hp0 : p ≠ "") (hp : p ≠ "Unknown") :
    (diverseSelect cands).countP (fun d => d.project = some p) ≤ 4 := by
  unfold diverseSelect
  refine le_trans ((List.take_sublist 25 _).countP_le _) ?_
  rw [List.countP_append]
  have hother : ((otherDocs cands).take 5).countP (fun d => d.project = some p) = 0 := by
    apply List.countP_eq_zero.mpr
    intro d hd hpred
    have hnone := mem_otherDocs (List.take_subset 5 _ hd)
    have hproj : d.project = some p := of_decide_eq_true hpred
    simp [groupLabel, hproj, hp0, hp] at hnone
  rw [hother]
  unfold selectedGrouped
  rw [List.countP_flatten, List.map_map]
  refine Nat.add_le_add ?_ (Nat.le_refl 0) |>.trans (Nat.add_zero 4).le
  apply sum_map_le_of_unique _ p 4 (groupedLabels_nodup cands)
  · intro q hq hqp
    apply List.countP_eq_zero.mpr
    intro d hd hpred
    have hlab := mem_groupOf (List.take_subset 4 _ hd)
    have hproj : d.project = some p := of_decide_eq_true hpred
    simp [groupLabel, hproj, hp0, hp] at hlab
    exact hqp hlab.symm
  · exact le_trans (List.countP_le_length _) (List.length_take_le 4 _)

lemma diverseSelect_length_le (cands : List Doc) :
    (diverseSelect cands).length ≤ 25 :=
  List.length_take_le 25 _

/-- C1 (amended): in broad (diversity) mode the retriever returns at
most 25 results and at most 4 passages for any single project label
other than the empty string and `"Unknown"` — both of which the code's
truthiness test treats as ungrouped — for every distribution of the
candidate set; and on the spec's scenario of 30 candidates spanning 6
projects of 5 candidates each, the result holds exactly 24 items. -/
theorem broad_mode_caps (sim : String → Nat → List Doc) (query : String)
    (hq : is_project_query query = true) :
    (enhancedRetrieve sim query).length ≤ 25 ∧
    (∀ p : String, p ≠ "" → p ≠ "Unknown" →
      (enhancedRetrieve sim query).countP (fun d => d.project = some p) ≤ 4) ∧
    (enhancedRetrieve (fun _ _ => scenario30) "all projects").length = 24 := by
  have hret : enhancedRetrieve sim query = diverseSelect (sim query 30) := by
    unfold enhancedRetrieve get_relevant_documents
    rw [if_pos hq]; rfl
  refine ⟨?_, ?_, ?_⟩
  · rw [hret]; exact diverseSelect_length_le _
  · intro p hp0 hp; rw [hret]; exact diverseSelect_countP_le _ p hp0 hp
  · decide

/-- Witness for C1 at a concrete broad-mode query and candidate set. -/
theorem broad_mode_caps_witness :
    is_project_query "all projects" = true ∧
    ((enhancedRetrieve (fun _ _ => scenario30) "all projects").length ≤ 25 ∧
     (∀ p : String, p ≠ "" → p ≠ "Unknown" →
       (enhancedRetrieve (fun _ _ => scenario30) "all projects").countP
         (fun d => d.project = some p) ≤ 4) ∧
     (enhancedRetrieve (fun _ _ => scenario30) "all projects").length = 24) :=
  ⟨by decide, broad_mode_caps (fun _ _ => scenario30) "all projects" (by decide)⟩

/-- Five candidates all carrying the empty-string project label. -/
def emptyLabelCands : List Doc :=
  (List.range 5).map (fun i => ⟨toString i, some ""⟩)

/-- C1 counterexample: five candidates all labelled with the single
project label `""` produce five result passages carrying that label —
more than the per-group cap of 4.  The code's truthiness test
(`if project and project != 'Unknown'`, line 102) routes empty labels to
`other_docs`, whose quota is 5, so the per-group cap does not apply to
them. -/
theorem broad_mode_empty_label_uncapped :
    is_project_query "all projects" = true ∧
    (enhancedRetrieve (fun _ _ => emptyLabelCands) "all projects").countP
      (fun d => d.project = some "") = 5 ∧
    ¬((enhancedRetrieve (fun _ _ => emptyLabelCands) "all projects").countP
      (fun d => d.project = some "") ≤ 4) := by
  decide

/-- C4: on a query matching none of the diversity intent phrases, the
retriever returns exactly the similarity primitive's list for
`min(base_k, 25)` items — no reordering, filtering or diversification. -/
theorem narrow_mode_passthrough (sim : String → Nat → List Doc)
    (query : String) (hq : is_project_query query = false) :
    enhancedRetrieve sim query = narrowModeSpec sim 30 25 query := by
  unfold enhancedRetrieve get_relevant_documents narrowModeSpec
  rw [if_neg (by simp [hq])]

/-- Witness for C4 at a concrete non-matching query. -/
theorem narrow_mode_passthrough_witness :
    is_project_query "hello" = false ∧
    enhancedRetrieve demoSim "hello" = narrowModeSpec demoSim 30 25 "hello" :=
  ⟨by decide, narrow_mode_passthrough demoSim "hello" (by decide)⟩

/-- C10: candidates with absent or `"Unknown"` project metadata never
occupy a per-group cap slot, `"Unknown"` never forms a group, the
ungrouped candidates are appended (at most 5 of them) after all grouped
selections, and at most 5 such candidates appear in the result. -/
theorem unknown_never_grouped (cands : List Doc) :
    ((groupedLabels cands).all (fun p => !(p == "Unknown")) = true) ∧
    diverseSelect cands =
      (selectedGrouped cands ++ (otherDocs cands).take 5).take 25 ∧
    (selectedGrouped cands).countP
      (fun d => d.project = none ∨ d.project = some "Unknown") = 0 ∧
    ((otherDocs cands).take 5).length ≤ 5 ∧
    (diverseSelect cands).countP
      (fun d => d.project = none ∨ d.project = some "Unknown") ≤ 5 := by
  refine ⟨?_, rfl, ?_, List.length_take_le 5 _, ?_⟩
  · apply List.all_eq_true.mpr
    intro p hp
    obtain ⟨d, _, hl⟩ := mem_groupedLabels hp
    have := (groupLabel_ne_unknown hl).2.2
    simpa using this
  · apply List.countP_eq_zero.mpr
    intro d hd hpred
    obtain ⟨p, hproj, _, hne⟩ := mem_selectedGrouped hd
    rcases of_decide_eq_true hpred with h | h
    · rw [hproj] at h; exact Option.noConfusion h
    · rw [hproj] at h; exact hne (Option.some.inj h)
  · unfold diverseSelect
    refine le_trans ((List.take_sublist 25 _).countP_le _) ?_
    rw [List.countP_append]
    have h1 : (selectedGrouped cands).countP
        (fun d => d.project = none ∨ d.project = some "Unknown") = 0 := by
      apply List.countP_eq_zero.mpr
      intro d hd hpred
      obtain ⟨p, hproj, _, hne⟩ := mem_selectedGrouped hd
      rcases of_decide_eq_true hpred with h | h
      · rw [hproj] at h; exact Option.noConfusion h
      · rw [hproj] at h; exact hne (Option.some.inj h)
    rw [h1, Nat.zero_add]
    exact le_trans (List.countP_le_length _) (List.length_take_le 5 _)

/-! ## Classifier (`document_loader.py` lines 59–68 and 177–212)

Paths are corpus-root-relative strings with `/` separators; the loader
passes absolute paths, but both keyword matching and segment iteration
depend only on the path text, so the relative form is the faithful unit
of specification (the spec's scenarios are phrased the same way). -/

/-- Split a character list at every occurrence of `sep`
(Python `str.split(sep)` with a one-character separator: `n` separators
yield `n + 1` fields, empty fields preserved). -/
def splitChar (sep : Char) : List Char → List (List Char)
  | [] => [[]]
  | c :: rest =>
    match splitChar sep rest with
    | [] => [[]]
    | g :: gs => if c = sep then [] :: g :: gs else (c :: g) :: gs

/-- `os.path.basename`: the text after the last `/`. -/
def pathBasename (cs : List Char) : List Char :=
  (splitChar '/' cs).getLastD []

/-- Python `part.replace('_', ' ')`. -/
def underscoreToSpace (cs : List Char) : List Char :=
  cs.map (fun c => if c = '_' then ' ' else c)

/-- Python `str.title()` (ASCII): upper-case a letter that follows a
non-letter, lower-case a letter that follows a letter.  The flag is
whether the previous character was a letter. -/
def titleCaseGo : Bool → List Char → List Char
  | _, [] => []
  | prevAlpha, c :: rest =>
    if c.isAlpha then
      (if prevAlpha then c.toLower else c.toUpper) :: titleCaseGo true rest
    else c :: titleCaseGo false rest

def titleCase (cs : List Char) : List Char := titleCaseGo false cs

/-- The full-path keyword rules of `determine_project_name`
(lines 183–192), in source order: first rule with any matching keyword
wins. -/
def pathKeywordRules : List (String × List String) :=
  [("SQL Server Upgrades",
    ["aa_sql", "sql_server", "sql server", "version_upgrade", "cumulative",
     "aiskoldb", "aiscengdb"]),
   ("Precision Agriculture Asset Management",
    ["itgisworx", "precision", "agriculture", "sensaas", "asset_management",
     "assets_datastructure"]),
   ("SFMS Mining Analytics",
    ["aa_sfms", "sfms", "mining", "quellaveco", "amps", "operator", "hexagon",
     "realtime", "truck"]),
   ("Database Migration",
    ["eben_db_migration", "migration", "consolidated", "modem", "meters",
     "suppliers", "accounts", "tariffs"]),
   ("Advanced Driver Assistance System",
    ["aa adas", "adas", "mix integrate", "driver assistance", "events",
     "dictionary"])]

/-- The per-segment keyword rules of the fallback loop (lines 200–209). -/
def segmentKeywordRules : List (String × List String) :=
  [("SQL Server Upgrades", ["sql", "server", "upgrade"]),
   ("Precision Agriculture Asset Management", ["precision", "agriculture", "gis"]),
   ("SFMS Mining Analytics", ["sfms", "mining", "analytics"]),
   ("Database Migration", ["migration", "db"]),
   ("Advanced Driver Assistance System", ["adas", "driver"])]

/-- First rule whose keyword set has a substring match in `hay`
(the `if/elif` chains of lines 183–192 and 200–209 as an ordered rule
list). -/
def firstRuleMatch (rules : List (String × List String)) (hay : List Char) :
    Option String :=
  match rules with
  | [] => none
  | (name, kws) :: rest =>
    if kws.any (fun kw => containsSub hay kw.toList) then some name
    else firstRuleMatch rest hay

/-- Fallback loop of `determine_project_name` (lines 194–211): walk the
path segments innermost-outward, skip the basename and the literal
`Projects` segment, and on the first remaining segment either match the
segment keyword rules or derive a title-cased soft label. -/
def projectFallbackLoop (parts : List (List Char)) (base : List Char) : String :=
  match parts with
  | [] => "General Project"
  | part :: rest =>
    if part ≠ base ∧ part ≠ "Projects".toList then
      match firstRuleMatch segmentKeywordRules (lowerChars part) with
      | some name => name
      | none => String.mk (titleCase (underscoreToSpace part))
    else projectFallbackLoop rest base

/-- `DocumentProcessor.determine_project_name` (lines 177–212). -/
def determine_project_name (filePath : String) : String :=
  let cs := filePath.toList
  match firstRuleMatch pathKeywordRules (lowerChars cs) with
  | some name => name
  | none => projectFallbackLoop (splitChar '/' cs).reverse (pathBasename cs)

/-- `DocumentProcessor.get_document_type` (lines 59–68) on the
root-relative path: a single-segment path gets the sentinel
`"root_files"`, otherwise the top-level directory names the type. -/
def get_document_type (relPath : String) : String :=
  let parts := splitChar '/' relPath.toList
  if parts.length = 1 then "root_files"
  else String.mk (parts.headD [])

lemma splitChar_eq_single {sep : Char} {cs : List Char} (h : sep ∉ cs) :
    splitChar sep cs = [cs] := by
  induction cs with
  | nil => rfl
  | cons c rest ih =>
    have hc : c ≠ sep := fun hc => h (hc ▸ List.mem_cons_self c rest)
    have hrest : sep ∉ rest := fun hr => h (List.mem_cons_of_mem c hr)
    simp only [splitChar, ih hrest]
    rw [if_neg hc]

/-- C2: the two scenario paths classify to their expected projects, and
both get `doc_type = "Projects"` (the top-level segment). -/
theorem classify_scenarios :
    determine_project_name "Projects/SQL_Server/upgrade.sql" = "SQL Server Upgrades" ∧
    determine_project_name "Projects/SFMS_Mining/report.pdf" = "SFMS Mining Analytics" ∧
    get_document_type "Projects/SQL_Server/upgrade.sql" = "Projects" ∧
    get_document_type "Projects/SFMS_Mining/report.pdf" = "Projects" := by
  decide

/-- C9: every file directly under the corpus root (single path segment)
gets the sentinel `doc_type = "root_files"` unconditionally; and when
such a path additionally matches no full-path project keyword, the
classifier assigns the sentinel project `"General Project"` (the
fallback loop skips the basename and runs out of segments). -/
theorem root_file_sentinels (p : String) (hsep : '/' ∉ p.toList) :
    get_document_type p = "root_files" ∧
    (firstRuleMatch pathKeywordRules (lowerChars p.toList) = none →
      determine_project_name p = "General Project") := by
  have hsplit : splitChar '/' p.toList = [p.toList] := splitChar_eq_single hsep
  constructor
  · unfold get_document_type
    rw [hsplit]
    rfl
  · intro hkw
    have hbase : pathBasename p.toList = p.toList := by
      unfold pathBasename
      rw [hsplit]
      rfl
    have hkw' : firstRuleMatch pathKeywordRules (lowerChars p.data) = none := hkw
    have hsplit' : splitChar '/' p.data = [p.data] := hsplit
    have hbase' : pathBasename p.data = p.data := hbase
    simp [determine_project_name, hkw', hsplit', hbase', projectFallbackLoop]

/-- Witness for C9 at a keyword-free root-level filename. -/
theorem root_file_sentinels_witness :
    '/' ∉ "readme.txt".toList ∧
    (get_document_type "readme.txt" = "root_files" ∧
     (firstRuleMatch pathKeywordRules (lowerChars "readme.txt".toList) = none →
      determine_project_name "readme.txt" = "General Project")) :=
  ⟨by decide, root_file_sentinels "readme.txt" (by decide)⟩

/-! ## Chunker

`chunk_documents` (lines 331–343) delegates the splitting algorithm to
`RecursiveCharacterTextSplitter`, a library whose code is not part of
this repository; only the parameters (`CHUNK_SIZE = 1200`,
`CHUNK_OVERLAP = 150`, separator priority ending in the hard cut `""`)
live here. -/

/-- `Config.CHUNK_SIZE` default (`config.py` line 28). -/
def CHUNK_SIZE : Nat := 1200

/-- `Config.CHUNK_OVERLAP` default (`config.py` line 29). -/
def CHUNK_OVERLAP : Nat := 150

/-- Modelled from the spec: the text-splitting algorithm invoked by
`chunk_documents` (langchain's `RecursiveCharacterTextSplitter`) is not
part of this repository's sources.  §4.2 contracts `chunk(text, size,
overlap)` with `overlap < size`, guarantees every chunk's length ≤
`size` with the hard cut as the fallback that enforces it, and requires
an `overlap`-sized trailing slice of each chunk to reappear at the start
of the next; the scenario arithmetic (a 3000-character document giving
exactly 3 chunks at `1200/150`) fixes the step between chunk starts at
`size − overlap`.  That contract is modelled here: successive windows of
`size` characters whose starts advance by `size − overlap` (the
separator-preference shifting of cut points inside a window is not
modelled).  A degenerate parameterisation (`overlap ≥ size`) returns the
whole text as one chunk. -/
def chunkCharsGo (size overlap : Nat) : Nat → List Char → List (List Char)
  | 0, cs => if cs.length = 0 then [] else [cs]
  | fuel + 1, cs =>
    if cs.length ≤ size ∨ size ≤ overlap then
      if cs.length = 0 then [] else [cs]
    else cs.take size :: chunkCharsGo size overlap fuel (cs.drop (size - overlap))

/-- The chunker on characters: the fuel (one window per unit) starts at
the text length, which bounds the number of windows since each step
drops at least one character. -/
def chunkChars (size overlap : Nat) (cs : List Char) : List (List Char) :=
  chunkCharsGo size overlap cs.length cs

lemma chunkCharsGo_zero (size overlap : Nat) (cs : List Char) :
    chunkCharsGo size overlap 0 cs = if cs.length = 0 then [] else [cs] := rfl

lemma chunkCharsGo_succ (size overlap fuel : Nat) (cs : List Char) :
    chunkCharsGo size overlap (fuel + 1) cs =
      if cs.length ≤ size ∨ size ≤ overlap then
        if cs.length = 0 then [] else [cs]
      else cs.take size :: chunkCharsGo size overlap fuel
        (cs.drop (size - overlap)) := rfl

/-- The chunker at string level, as `chunk(t, size, overlap)`. -/
def chunk (t : String) (size overlap : Nat) : List String :=
  (chunkChars size overlap t.toList).map String.mk

/-- Concatenation of chunks ignoring the overlap regions: the first
chunk whole, every later chunk with its first `overlap` characters
removed. -/
def joinOverlap (overlap : Nat) : List (List Char) → List Char
  | [] => []
  | c :: rest => c ++ (rest.map (fun l => l.drop overlap)).flatten

/-- `joinOverlap` at string level. -/
def reconstructChunks (overlap : Nat) (chunks : List String) : String :=
  String.mk (joinOverlap overlap (chunks.map String.toList))

/-- The last `n` characters of a string. -/
def lastChars (n : Nat) (s : String) : String :=
  String.mk (s.toList.drop (s.toList.length - n))

/-- The first `n` characters of a string. -/
def firstChars (n : Nat) (s : String) : String :=
  String.mk (s.toList.take n)

/-- Every consecutive chunk pair shares its `n`-character boundary: the
last `n` characters of each chunk reappear as a prefix of the next. -/
def overlapChain (n : Nat) : List String → Bool
  | a :: b :: rest => (lastChars n a == firstChars n b) && overlapChain n (b :: rest)
  | _ => true

lemma chunkCharsGo_chunk_le (size overlap : Nat) (hso : overlap < size) :
    ∀ fuel cs, cs.length ≤ fuel →
      ∀ c ∈ chunkCharsGo size overlap fuel cs, c.length ≤ size := by
  intro fuel
  induction fuel with
  | zero =>
    intro cs hcs c hc
    rw [chunkCharsGo_zero, if_pos (Nat.le_zero.mp hcs)] at hc
    simp at hc
  | succ n ih =>
    intro cs hcs c hc
    rw [chunkCharsGo_succ] at hc
    by_cases h : cs.length ≤ size ∨ size ≤ overlap
    · rw [if_pos h] at hc
      have hle : cs.length ≤ size := by omega
      by_cases hz : cs.length = 0
      · rw [if_pos hz] at hc
        simp at hc
      · rw [if_neg hz] at hc
        simp at hc
        subst hc
        exact hle
    · rw [if_neg h] at hc
      rcases List.mem_cons.mp hc with rfl | hc'
      · simp [List.length_take]
      · have hdrop : (cs.drop (size - overlap)).length ≤ n := by
          rw [List.length_drop]
          omega
        exact ih (cs.drop (size - overlap)) hdrop c hc'

lemma chunkChars_chunk_le (size overlap : Nat) (hso : overlap < size)
    (cs : List Char) : ∀ c ∈ chunkChars size overlap cs, c.length ≤ size :=
  chunkCharsGo_chunk_le size overlap hso cs.length cs (le_refl _)

lemma chunkCharsGo_head (size overlap : Nat) (hso : overlap < size)
    (fuel : Nat) (cs : List Char) (hf : cs.length ≤ fuel) (hne : cs.length ≠ 0) :
    ∃ rest, chunkCharsGo size overlap fuel cs = cs.take size :: rest := by
  cases fuel with
  | zero => omega
  | succ n =>
    rw [chunkCharsGo_succ]
    by_cases h : cs.length ≤ size ∨ size ≤ overlap
    · rw [if_pos h, if_neg hne]
      have hle : cs.length ≤ size := by omega
      exact ⟨[], by rw [List.take_of_length_le hle]⟩
    · rw [if_neg h]
      exact ⟨_, rfl⟩

lemma chunkCharsGo_reconstruct (size overlap : Nat) (hso : overlap < size) :
    ∀ fuel cs, cs.length ≤ fuel →
      joinOverlap overlap (chunkCharsGo size overlap fuel cs) = cs := by
  intro fuel
  induction fuel with
  | zero =>
    intro cs hcs
    rw [chunkCharsGo_zero, if_pos (Nat.le_zero.mp hcs)]
    rw [List.eq_nil_of_length_eq_zero (Nat.le_zero.mp hcs)]
    rfl
  | succ n ih =>
    intro cs hcs
    rw [chunkCharsGo_succ]
    by_cases h : cs.length ≤ size ∨ size ≤ overlap
    · rw [if_pos h]
      by_cases hz : cs.length = 0
      · rw [if_pos hz, List.eq_nil_of_length_eq_zero hz]
        rfl
      · rw [if_neg hz]
        simp [joinOverlap]
    · rw [if_neg h]
      set cs' := cs.drop (size - overlap) with hcs'
      have hlen' : cs'.length = cs.length - (size - overlap) := List.length_drop _ _
      have hne' : cs'.length ≠ 0 := by omega
      have hfuel' : cs'.length ≤ n := by omega
      obtain ⟨rest, hrest⟩ := chunkCharsGo_head size overlap hso n cs' hfuel' hne'
      have hih : joinOverlap overlap (chunkCharsGo size overlap n cs') = cs' :=
        ih cs' hfuel'
      rw [hrest] at hih ⊢
      simp only [joinOverlap, List.map_cons, List.flatten_cons] at hih ⊢
      have hhead : overlap ≤ (cs'.take size).length := by
        rw [List.length_take]
        omega
      rw [← List.drop_append_of_le_length hhead, hih]
      rw [hcs', List.drop_drop]
      have hsum : size - overlap + overlap = size := by omega
      rw [hsum]
      exact List.take_append_drop size cs

lemma chunkChars_reconstruct (size overlap : Nat) (hso : overlap < size)
    (cs : List Char) :
    joinOverlap overlap (chunkChars size overlap cs) = cs :=
  chunkCharsGo_reconstruct size overlap hso cs.length cs (le_refl _)

/-- C3: with `overlap < size`, every chunk has length at most `size`,
and concatenating the chunks in order while dropping each later chunk's
`overlap`-character prefix reconstructs the input text. -/
theorem chunker_bounds (t : String) (size overlap : Nat) (hso : overlap < size) :
    (chunk t size overlap).all (fun c => c.length ≤ size) = true ∧
    reconstructChunks overlap (chunk t size overlap) = t := by
  constructor
  · apply List.all_eq_true.mpr
    intro c hc
    obtain ⟨cs, hcs, rfl⟩ := List.mem_map.mp hc
    have hle := chunkChars_chunk_le size overlap hso t.toList cs hcs
    exact decide_eq_true hle
  · unfold reconstructChunks chunk
    rw [List.map_map]
    have : String.toList ∘ String.mk = id := rfl
    rw [this, List.map_id]
    rw [chunkChars_reconstruct size overlap hso t.toList]
    rfl

/-- Witness for C3 at a concrete text and parameters. -/
theorem chunker_bounds_witness :
    3 < 8 ∧
    ((chunk "hello world, hello" 8 3).all (fun c => c.length ≤ 8) = true ∧
     reconstructChunks 3 (chunk "hello world, hello" 8 3) = "hello world, hello") :=
  ⟨by decide, chunker_bounds "hello world, hello" 8 3 (by decide)⟩

/-- C8: every 3000-character document chunked at `size = 1200`,
`overlap = 150` yields exactly 3 chunks, each of length ≤ 1200, with the
last 150 characters of each chunk reappearing as a prefix of the next. -/
theorem chunk_3000_scenario (t : String) (h : t.length = 3000) :
    (chunk t 1200 150).length = 3 ∧
    (chunk t 1200 150).all (fun c => c.length ≤ 1200) = true ∧
    overlapChain 150 (chunk t 1200 150) = true := by
  have hlen : t.toList.length = 3000 := h
  have hl1 : (t.toList.drop 1050).length = 1950 := by
    rw [List.length_drop, hlen]
  have hl2 : ((t.toList.drop 1050).drop 1050).length = 900 := by
    rw [List.length_drop, hl1]
  have e1 : chunkChars 1200 150 t.toList =
      t.toList.take 1200 :: chunkCharsGo 1200 150 2999 (t.toList.drop 1050) := by
    unfold chunkChars
    rw [hlen, show (3000 : Nat) = 2999 + 1 from rfl, chunkCharsGo_succ,
      if_neg (by omega)]
  have e2 : chunkCharsGo 1200 150 2999 (t.toList.drop 1050) =
      (t.toList.drop 1050).take 1200 ::
        chunkCharsGo 1200 150 2998 ((t.toList.drop 1050).drop 1050) := by
    rw [show (2999 : Nat) = 2998 + 1 from rfl, chunkCharsGo_succ,
      if_neg (by omega)]
  have e3 : chunkCharsGo 1200 150 2998 ((t.toList.drop 1050).drop 1050) =
      [(t.toList.drop 1050).drop 1050] := by
    rw [show (2998 : Nat) = 2997 + 1 from rfl, chunkCharsGo_succ,
      if_pos (Or.inl (by omega)), if_neg (by omega)]
  have echunks : chunk t 1200 150 =
      [String.mk (t.toList.take 1200),
       String.mk ((t.toList.drop 1050).take 1200),
       String.mk ((t.toList.drop 1050).drop 1050)] := by
    unfold chunk
    rw [e1, e2, e3]
    rfl
  refine ⟨by rw [echunks]; rfl, ?_, ?_⟩
  · apply List.all_eq_true.mpr
    intro c hc
    obtain ⟨cs, hcs, rfl⟩ := List.mem_map.mp hc
    exact decide_eq_true
      (chunkChars_chunk_le 1200 150 (by omega) t.toList cs hcs)
  · rw [echunks]
    show ((lastChars 150 (String.mk (t.toList.take 1200)) ==
        firstChars 150 (String.mk ((t.toList.drop 1050).take 1200))) &&
        ((lastChars 150 (String.mk ((t.toList.drop 1050).take 1200)) ==
        firstChars 150 (String.mk ((t.toList.drop 1050).drop 1050))) && true)) = true
    have hm1 : (String.mk (t.toList.take 1200)).toList = t.toList.take 1200 := rfl
    have hm2 : (String.mk ((t.toList.drop 1050).take 1200)).toList =
        (t.toList.drop 1050).take 1200 := rfl
    have hm3 : (String.mk ((t.toList.drop 1050).drop 1050)).toList =
        (t.toList.drop 1050).drop 1050 := rfl
    have hlen1 : (t.toList.take 1200).length = 1200 := by
      rw [List.length_take, hlen]
      omega
    have hlen2 : ((t.toList.drop 1050).take 1200).length = 1200 := by
      rw [List.length_take, hl1]
      omega
    have q1 : lastChars 150 (String.mk (t.toList.take 1200)) =
        firstChars 150 (String.mk ((t.toList.drop 1050).take 1200)) := by
      unfold lastChars firstChars
      rw [hm1, hm2, hlen1]
      congr 1
      rw [List.drop_take, List.take_take]
      norm_num
    have q2 : lastChars 150 (String.mk ((t.toList.drop 1050).take 1200)) =
        firstChars 150 (String.mk ((t.toList.drop 1050).drop 1050)) := by
      unfold lastChars firstChars
      rw [hm2, hm3, hlen2]
      congr 1
      rw [List.drop_take]
    rw [q1, q2]
    simp

/-- Witness for C8 at a concrete 3000-character document. -/
theorem chunk_3000_scenario_witness :
    (String.mk (List.replicate 3000 'a')).length = 3000 ∧
    ((chunk (String.mk (List.replicate 3000 'a')) 1200 150).length = 3 ∧
     (chunk (String.mk (List.replicate 3000 'a')) 1200 150).all
       (fun c => c.length ≤ 1200) = true ∧
     overlapChain 150 (chunk (String.mk (List.replicate 3000 'a')) 1200 150) = true) :=
  ⟨by rw [show (String.mk (List.replicate 3000 'a')).length =
        (List.replicate 3000 'a').length from rfl, List.length_replicate],
   chunk_3000_scenario (String.mk (List.replicate 3000 'a'))
     (by rw [show (String.mk (List.replicate 3000 'a')).length =
          (List.replicate 3000 'a').length from rfl, List.length_replicate])⟩

/-! ## Corpus builder (`document_loader.py` lines 30–57, 79–175, 214–329,
345–383)

The filesystem is abstracted to a list of files, each with its
corpus-root-relative path segments, byte size and extracted text
content; `os.walk`/`glob` traversal order is abstracted to the list
order (the claims under test are membership and count properties).
Extraction is modelled as always yielding the file's `content` (decode
retries and library failures are out of the modelled claims), and a PDF
is modelled as a single document rather than one per page. -/

/-- `Config.MAX_FILE_SIZE` default (`config.py` line 25). -/
def MAX_FILE_SIZE : Nat := 100000

/-- `Config.SUPPORTED_EXTENSIONS` (`config.py` lines 39–42). -/
def SUPPORTED_EXTENSIONS : List String :=
  [".md", ".txt", ".py", ".js", ".html", ".css", ".json", ".yml", ".yaml",
   ".xml", ".csv", ".rst", ".tex", ".pdf", ".docx", ".doc", ".xlsx", ".xls"]

/-- A file of the corpus tree. -/
structure FsFile where
  path : List String
  size : Nat
  content : String
  deriving DecidableEq, Repr

/-- `os.path.splitext(...)[1]` on a basename: the extension from the
last `.` onward, empty when there is no `.` or only leading dots
precede it. -/
def fileExt (name : List Char) : List Char :=
  let rev := name.reverse
  if rev.any (fun c => c = '.') then
    let afterRev := rev.takeWhile (fun c => c ≠ '.')
    let beforeRev := (rev.dropWhile (fun c => c ≠ '.')).drop 1
    if beforeRev.any (fun c => c ≠ '.') then '.' :: afterRev.reverse else []
  else []

/-- The lower-cased extension of a file (`os.path.splitext(filename)[1].lower()`). -/
def extOf (f : FsFile) : String :=
  String.mk (lowerChars (fileExt (f.path.getLastD "").toList))

/-- Python `name.startswith('.')`. -/
def isHiddenSeg (seg : String) : Bool :=
  seg.toList.headD ' ' = '.'

/-- `find_all_files_recursive` membership (lines 43–57): hidden
directories are pruned, hidden filenames skipped, and the extension must
be supported.  Note: unlike `find_all_directories` (line 36, never
called by the loading path), this walk does NOT exclude `__pycache__`
or `node_modules`. -/
def discovered (f : FsFile) : Bool :=
  f.path.dropLast.all (fun d => !(isHiddenSeg d)) &&
  !(isHiddenSeg (f.path.getLastD "")) &&
  SUPPORTED_EXTENSIONS.contains (extOf f)

def find_all_files_recursive (fs : List FsFile) : List FsFile :=
  fs.filter discovered

/-- A loaded document/passage with the metadata the pipeline attaches
(`source` as set by the loaders, `doc_type`, optional `project`). -/
structure PDoc where
  content : String
  srcPath : List String
  source : String
  doc_type : String
  project : Option String
  deriving DecidableEq, Repr

/-- `os.path.join(base_path, *segments)` as the loaders record it in
`metadata["source"]`. -/
def joinPath (basePath : String) (segs : List String) : String :=
  basePath ++ "/" ++ String.intercalate "/" segs

/-- `get_document_type` (lines 59–68) on the segment representation of
the relative path. -/
def doc_type_of (segs : List String) : String :=
  if segs.length = 1 then "root_files" else segs.headD ""

/-- The document built by `load_documents_recursive` for one accepted
file: `doc_type` from the top-level directory, no `project` metadata
(the recursive loader never sets it, lines 109–167). -/
def mkRecursiveDoc (basePath : String) (f : FsFile) : PDoc :=
  { content := f.content, srcPath := f.path, source := joinPath basePath f.path,
    doc_type := doc_type_of f.path, project := none }

/-- The body of `load_documents_recursive`'s loop over discovered files
(lines 92–171): oversized files are counted and skipped, the rest are
loaded.  Returns (documents, loaded count, skipped-too-large count). -/
def loadRecGo (basePath : String) (maxFileSize : Nat) :
    List FsFile → List PDoc × Nat × Nat
  | [] => ([], 0, 0)
  | f :: rest =>
    let r := loadRecGo basePath maxFileSize rest
    if maxFileSize < f.size then (r.1, r.2.1, r.2.2 + 1)
    else (mkRecursiveDoc basePath f :: r.1, r.2.1 + 1, r.2.2)

def load_documents_recursive (basePath : String) (maxFileSize : Nat)
    (fs : List FsFile) : List PDoc :=
  (loadRecGo basePath maxFileSize (find_all_files_recursive fs)).1

/-- The `skipped_large` counter logged at line 173. -/
def skipped_large_count (basePath : String) (maxFileSize : Nat)
    (fs : List FsFile) : Nat :=
  (loadRecGo basePath maxFileSize (find_all_files_recursive fs)).2.2

/-- The extensions the enhanced project loader dispatches on
(lines 247–314); any other extension falls through the `if/elif` chain
and produces nothing. -/
def ENHANCED_EXTS : List String :=
  [".pdf", ".docx", ".doc", ".txt", ".sql", ".xlsx", ".xls", ".csv"]

/-- Line 233: skip `~$` temporaries and dotfiles. -/
def isTempName (seg : String) : Bool :=
  "~$".toList.isPrefixOf seg.toList || isHiddenSeg seg

/-- Membership in the `glob("Projects/**/*", recursive=True)` file list
(lines 219–220) minus the line-233 skip: under `Projects/`, no hidden
component (`glob`'s `*` never matches a leading dot), not a temporary. -/
def enhancedEligible (f : FsFile) : Bool :=
  f.path.headD "" = "Projects" &&
  f.path.all (fun seg => !(isHiddenSeg seg)) &&
  !(isTempName (f.path.getLastD ""))

/-- Python `content.strip()` truthiness: some non-whitespace character. -/
def stripNonempty (s : String) : Bool :=
  s.toList.any (fun c => !c.isWhitespace)

/-- The enhanced document for a project file (lines 239–312):
`doc_type = "Projects"`, `project` from `determine_project_name` on the
full path, content prefixed with the project banner (the per-file-type
label differences in the banner are abstracted; no claim inspects
them). -/
def mkEnhancedDoc (basePath : String) (f : FsFile) : PDoc :=
  let projectName := determine_project_name (joinPath basePath f.path)
  { content := "ARTILIGENCE PROJECT: " ++ projectName ++ "\n\n" ++
      (f.path.getLastD "") ++ "\n\n" ++ f.content,
    srcPath := f.path, source := joinPath basePath f.path,
    doc_type := "Projects", project := some projectName }

/-- The `if/elif` extension dispatch of the enhanced loader
(lines 247–314): `.docx/.doc` require stripped-nonempty content
(line 262), `.txt` requires non-`None`/nonempty content (line 281), the
rest of the handled extensions always produce a document; unhandled
extensions produce nothing. -/
def enhancedDoc? (basePath : String) (f : FsFile) : Option PDoc :=
  if extOf f = ".pdf" then some (mkEnhancedDoc basePath f)
  else if extOf f = ".docx" ∨ extOf f = ".doc" then
    if stripNonempty f.content then some (mkEnhancedDoc basePath f) else none
  else if extOf f = ".txt" then
    if f.content ≠ "" then some (mkEnhancedDoc basePath f) else none
  else if extOf f = ".sql" then some (mkEnhancedDoc basePath f)
  else if extOf f = ".xlsx" ∨ extOf f = ".xls" ∨ extOf f = ".csv" then
    some (mkEnhancedDoc basePath f)
  else none

def load_enhanced_project_documents (basePath : String)
    (fs : List FsFile) : List PDoc :=
  (fs.filter enhancedEligible).filterMap (enhancedDoc? basePath)

/-- The document-level size filter of `load_all_documents`
(lines 360–368): keep every `Projects` document regardless of content
size, others only up to `max_file_size` characters. -/
def passage_filter (maxFileSize : Nat) (docs : List PDoc) : List PDoc :=
  docs.filter (fun d => d.doc_type = "Projects" || d.content.length ≤ maxFileSize)

/-- `chunk_documents` (lines 331–343): split every document's content,
each chunk inheriting its document's metadata
(`split_documents` behaviour). -/
def chunk_documents (docs : List PDoc) : List PDoc :=
  docs.flatMap (fun d =>
    (chunk d.content CHUNK_SIZE CHUNK_OVERLAP).map (fun c => { d with content := c }))

/-- A linear congruential step (the glibc constants). -/
def lcgNext (x : Nat) : Nat := (1103515245 * x + 12345) % 2147483648

/-- Modelled from the spec: `random.sample` seeded with `random.seed(42)`
(lines 378–380) is Python-standard-library code, not part of this
repository.  §4.3 and the design notes require a deterministic
down-sample with a fixed seed to a fixed target count, drawing from the
original chunk list; that contract is modelled as a pure
pseudo-random selection without replacement driven by a seeded LCG
stream (the exact Mersenne Twister permutation is not modelled). -/
def sampleGo {α : Type} : Nat → Nat → List α → List α
  | _, 0, _ => []
  | st, n + 1, pool =>
    match pool.get? (st % pool.length) with
    | none => []
    | some x => x :: sampleGo (lcgNext st) n (pool.eraseIdx (st % pool.length))

/-- `random.seed(42); random.sample(chunks, n)` of lines 378–380. -/
def random_sample {α : Type} (xs : List α) (n : Nat) : List α :=
  sampleGo 42 n xs

/-- The chunk-count safety cap (lines 375–380): above 5000 chunks,
down-sample to exactly 5000. -/
def cap_chunks (chunks : List PDoc) : List PDoc :=
  if chunks.length > 5000 then random_sample chunks 5000 else chunks

/-- `load_all_documents` (lines 345–383): recursive load plus enhanced
project load, document-level size filter, chunking, chunk-count cap. -/
def load_all_documents (basePath : String) (maxFileSize : Nat)
    (fs : List FsFile) : List PDoc :=
  cap_chunks (chunk_documents (passage_filter maxFileSize
    (load_documents_recursive basePath maxFileSize fs ++
     load_enhanced_project_documents basePath fs)))

lemma loadRecGo_cons (b : String) (m : Nat) (f : FsFile) (rest : List FsFile) :
    loadRecGo b m (f :: rest) =
      if m < f.size then
        ((loadRecGo b m rest).1, (loadRecGo b m rest).2.1,
         (loadRecGo b m rest).2.2 + 1)
      else
        (mkRecursiveDoc b f :: (loadRecGo b m rest).1,
         (loadRecGo b m rest).2.1 + 1, (loadRecGo b m rest).2.2) := rfl

lemma loadRecGo_mem (b : String) (m : Nat) :
    ∀ l : List FsFile, ∀ d ∈ (loadRecGo b m l).1,
      ∃ f ∈ l, f.size ≤ m ∧ d = mkRecursiveDoc b f := by
  intro l
  induction l with
  | nil => intro d hd; simp [loadRecGo] at hd
  | cons f rest ih =>
    intro d hd
    rw [loadRecGo_cons] at hd
    by_cases hc : m < f.size
    · rw [if_pos hc] at hd
      obtain ⟨g, hg, hgle, hgd⟩ := ih d hd
      exact ⟨g, List.mem_cons_of_mem f hg, hgle, hgd⟩
    · rw [if_neg hc] at hd
      have hd' : d ∈ mkRecursiveDoc b f :: (loadRecGo b m rest).1 := hd
      rcases List.mem_cons.mp hd' with rfl | hd''
      · exact ⟨f, List.mem_cons_self f rest, by omega, rfl⟩
      · obtain ⟨g, hg, hgle, hgd⟩ := ih d hd''
        exact ⟨g, List.mem_cons_of_mem f hg, hgle, hgd⟩

lemma loadRecGo_skipped (b : String) (m : Nat) :
    ∀ l : List FsFile, (loadRecGo b m l).2.2 = l.countP (fun f => m < f.size) := by
  intro l
  induction l with
  | nil => rfl
  | cons f rest ih =>
    rw [loadRecGo_cons, List.countP_cons]
    by_cases hc : m < f.size
    · rw [if_pos hc, decide_eq_true hc, if_pos rfl, ih]
    · rw [if_neg hc, decide_eq_false hc, if_neg (by simp), ih]
      omega

lemma enhancedDoc?_eq_some {b : String} {f : FsFile} {d : PDoc}
    (h : enhancedDoc? b f = some d) : d = mkEnhancedDoc b f := by
  unfold enhancedDoc? at h
  repeat' split at h
  all_goals first
    | exact (Option.some.inj h).symm
    | exact absurd h (by simp)

lemma mem_load_enhanced {b : String} {fs : List FsFile} {d : PDoc}
    (h : d ∈ load_enhanced_project_documents b fs) :
    ∃ f ∈ fs, enhancedEligible f = true ∧ d = mkEnhancedDoc b f := by
  unfold load_enhanced_project_documents at h
  obtain ⟨f, hf, hd⟩ := List.mem_filterMap.mp h
  exact ⟨f, (List.mem_filter.mp hf).1, (List.mem_filter.mp hf).2,
    enhancedDoc?_eq_some hd⟩

lemma mem_chunk_documents {docs : List PDoc} {c : PDoc}
    (h : c ∈ chunk_documents docs) :
    ∃ d ∈ docs, c.srcPath = d.srcPath ∧ c.source = d.source ∧
      c.doc_type = d.doc_type := by
  unfold chunk_documents at h
  obtain ⟨d, hd, hc⟩ := List.mem_flatMap.mp h
  obtain ⟨x, _, rfl⟩ := List.mem_map.mp hc
  exact ⟨d, hd, rfl, rfl, rfl⟩

lemma sampleGo_zero {α : Type} (st : Nat) (pool : List α) :
    sampleGo st 0 pool = [] := rfl

lemma sampleGo_succ {α : Type} (st n : Nat) (pool : List α) :
    sampleGo st (n + 1) pool =
      match pool.get? (st % pool.length) with
      | none => []
      | some x => x :: sampleGo (lcgNext st) n
          (pool.eraseIdx (st % pool.length)) := rfl

lemma sampleGo_length {α : Type} :
    ∀ (n st : Nat) (pool : List α), n ≤ pool.length →
      (sampleGo st n pool).length = n := by
  intro n
  induction n with
  | zero => intro st pool _; rfl
  | succ m ih =>
    intro st pool h
    have hpos : 0 < pool.length := by omega
    have hlt : st % pool.length < pool.length := Nat.mod_lt _ hpos
    have ha : pool.get? (st % pool.length) = some (pool.get ⟨_, hlt⟩) :=
      List.get?_eq_get hlt
    have herase : (pool.eraseIdx (st % pool.length)).length = pool.length - 1 := by
      rw [List.length_eraseIdx]
      simp [hlt]
    simp only [sampleGo_succ, ha, List.length_cons]
    rw [ih (lcgNext st) _ (by omega)]

lemma sampleGo_subset {α : Type} :
    ∀ (n st : Nat) (pool : List α), ∀ x ∈ sampleGo st n pool, x ∈ pool := by
  intro n
  induction n with
  | zero => intro st pool x hx; simp [sampleGo_zero] at hx
  | succ m ih =>
    intro st pool x hx
    rw [sampleGo_succ] at hx
    cases ha : pool.get? (st % pool.length) with
    | none => rw [ha] at hx; simp at hx
    | some a =>
      rw [ha] at hx
      have hx' : x ∈ a :: sampleGo (lcgNext st) m
          (pool.eraseIdx (st % pool.length)) := hx
      rcases List.mem_cons.mp hx' with rfl | hx''
      · exact List.get?_mem ha
      · exact (List.eraseIdx_sublist pool _).subset (ih (lcgNext st) _ x hx'')

lemma mem_cap_chunks {l : List PDoc} {d : PDoc} (h : d ∈ cap_chunks l) :
    d ∈ l := by
  unfold cap_chunks at h
  by_cases hc : l.length > 5000
  · rw [if_pos hc] at h
    exact sampleGo_subset 5000 42 l d h
  · rw [if_neg hc] at h
    exact h

lemma joinPath_ne_empty (b : String) (segs : List String) :
    joinPath b segs ≠ "" := by
  intro hcontra
  unfold joinPath at hcontra
  have h0 := congrArg String.length hcontra
  rw [String.length_append, String.length_append] at h0
  have h1 : ("/" : String).length = 1 := rfl
  have h2 : ("" : String).length = 0 := rfl
  rw [h1, h2] at h0
  omega

lemma discovered_nonhidden {f : FsFile} (h : discovered f = true) :
    f.path.all (fun seg => !(isHiddenSeg seg)) = true := by
  unfold discovered at h
  rw [Bool.and_eq_true, Bool.and_eq_true] at h
  obtain ⟨⟨hdrop, hlast⟩, _⟩ := h
  apply List.all_eq_true.mpr
  intro seg hseg
  by_cases hnil : f.path = []
  · rw [hnil] at hseg
    simp at hseg
  · have hgl : f.path.getLastD "" = f.path.getLast hnil := by
      rw [List.getLastD_eq_getLast?, List.getLast?_eq_getLast f.path hnil]
      rfl
    have hsplit := List.dropLast_append_getLast hnil
    rw [← hsplit] at hseg
    rcases List.mem_append.mp hseg with hh | hh
    · exact List.all_eq_true.mp hdrop seg hh
    · have hlasteq : seg = f.path.getLast hnil := by simpa using hh
      rw [hlasteq, ← hgl]
      exact hlast

lemma eligible_nonhidden {f : FsFile} (h : enhancedEligible f = true) :
    f.path.all (fun seg => !(isHiddenSeg seg)) = true := by
  unfold enhancedEligible at h
  rw [Bool.and_eq_true, Bool.and_eq_true] at h
  exact h.1.2

/-- C7 (amended): every passage emitted by the corpus build carries a
non-empty source path, and none originates from a hidden file or
directory.  (The claim's further exclusion of `__pycache__` and
`node_modules` does not hold of the file-discovery code; see the
counterexample.) -/
theorem passages_no_hidden (b : String) (m : Nat) (fs : List FsFile) :
    (load_all_documents b m fs).all
      (fun d => !(d.source == "") &&
        d.srcPath.all (fun seg => !(isHiddenSeg seg))) = true := by
  apply List.all_eq_true.mpr
  intro c hc
  have hcap := mem_cap_chunks hc
  obtain ⟨d, hd, hsp, hsrc, _⟩ := mem_chunk_documents hcap
  have hdocs : d ∈ load_documents_recursive b m fs ++
      load_enhanced_project_documents b fs := (List.mem_filter.mp hd).1
  have key : d.source ≠ "" ∧
      d.srcPath.all (fun seg => !(isHiddenSeg seg)) = true := by
    rcases List.mem_append.mp hdocs with hrec | henh
    · obtain ⟨f, hf, _, rfl⟩ :=
        loadRecGo_mem b m (find_all_files_recursive fs) d hrec
      exact ⟨joinPath_ne_empty b f.path,
        discovered_nonhidden (List.mem_filter.mp hf).2⟩
    · obtain ⟨f, _, helig, rfl⟩ := mem_load_enhanced henh
      exact ⟨joinPath_ne_empty b f.path, eligible_nonhidden helig⟩
  rw [Bool.and_eq_true]
  constructor
  · rw [hsrc, beq_eq_false_iff_ne.mpr key.1]
    rfl
  · rw [hsp]
    exact key.2

/-- C7 counterexample: a `node_modules` file is discovered and a passage
from it is emitted — the tooling-directory exclusion exists only in
`find_all_directories`, which the loading path never calls. -/
theorem tooling_not_excluded :
    discovered ⟨["node_modules", "lib", "index.js"], 10, "var x = 1;"⟩ = true ∧
    (load_all_documents "/corpus" 100000
        [⟨["node_modules", "lib", "index.js"], 10, "var x = 1;"⟩]).any
      (fun d => d.srcPath.contains "node_modules") = true := by
  decide

/-- C5 (amended): every discovered file above `max_file_size` is skipped
by the recursive loader and counted in the too-large counter, regardless
of `doc_type`; files under `Projects/` handled by the enhanced project
loader are loaded with no size check and their documents pass the
document-level size filter through the `Projects` exemption. -/
theorem size_filter_behaviour (b : String) (m : Nat) (fs : List FsFile) :
    skipped_large_count b m fs =
      (find_all_files_recursive fs).countP (fun f => m < f.size) ∧
    (∀ d ∈ load_documents_recursive b m fs,
      ∃ f ∈ find_all_files_recursive fs, f.size ≤ m ∧ d = mkRecursiveDoc b f) ∧
    (∀ f ∈ fs, enhancedEligible f = true → ∀ d : PDoc,
      enhancedDoc? b f = some d →
        d.doc_type = "Projects" ∧
        d ∈ passage_filter m (load_documents_recursive b m fs ++
          load_enhanced_project_documents b fs)) := by
  refine ⟨loadRecGo_skipped b m _, loadRecGo_mem b m _, ?_⟩
  intro f hf helig d hd
  have hdm : d = mkEnhancedDoc b f := enhancedDoc?_eq_some hd
  refine ⟨by rw [hdm]; rfl, ?_⟩
  apply List.mem_filter.mpr
  refine ⟨?_, ?_⟩
  · apply List.mem_append.mpr
    right
    unfold load_enhanced_project_documents
    exact List.mem_filterMap.mpr ⟨f, List.mem_filter.mpr ⟨hf, helig⟩, hd⟩
  · rw [hdm]
    simp [mkEnhancedDoc]

/-- C5 counterexample: an oversized `.md` file under `Projects/` — whose
`doc_type` is the privileged `"Projects"` — is size-filtered out of the
build entirely: the recursive loader skips it for size and the enhanced
loader does not dispatch on `.md`. -/
theorem projects_md_size_filtered :
    doc_type_of ["Projects", "Alpha", "notes.md"] = "Projects" ∧
    discovered ⟨["Projects", "Alpha", "notes.md"], 200001, "hello"⟩ = true ∧
    100000 < 200001 ∧
    load_all_documents "/corpus" 100000
      [⟨["Projects", "Alpha", "notes.md"], 200001, "hello"⟩] = [] := by
  decide

/-- Concrete corpus for the C5 witness. -/
def demoCorpus : List FsFile :=
  [⟨["Projects", "SQL_Server", "huge.sql"], 300000, "SELECT 1;"⟩,
   ⟨["Reports", "big.txt"], 200000, "x"⟩,
   ⟨["readme.md"], 10, "hi"⟩]

/-- The oversized enhanced-loader project file of the C5 witness. -/
def bigSqlFile : FsFile := ⟨["Projects", "SQL_Server", "huge.sql"], 300000, "SELECT 1;"⟩

/-- Witness for C5 at a concrete oversized `.sql` project file. -/
theorem size_filter_behaviour_witness :
    bigSqlFile ∈ demoCorpus ∧ enhancedEligible bigSqlFile = true ∧
    ((mkEnhancedDoc "/corpus" bigSqlFile).doc_type = "Projects" ∧
     mkEnhancedDoc "/corpus" bigSqlFile ∈ passage_filter 100000
       (load_documents_recursive "/corpus" 100000 demoCorpus ++
        load_enhanced_project_documents "/corpus" demoCorpus)) :=
  ⟨by decide, by decide,
   (size_filter_behaviour "/corpus" 100000 demoCorpus).2.2 bigSqlFile
     (by decide) (by decide) (mkEnhancedDoc "/corpus" bigSqlFile) (by decide)⟩

/-- C6: above the 5000-chunk cap the builder down-samples to exactly
5000 chunks, every selected chunk is drawn from the original list, and —
the seeded sampler being a pure function of the fixed seed and its
input — a second run over the same chunk list yields the identical
result (the two-run equation is definitional in a pure embedding). -/
theorem chunk_cap_down_sample (chunks : List PDoc) (h : 5000 < chunks.length) :
    (cap_chunks chunks).length = 5000 ∧
    (cap_chunks chunks).all (fun c => decide (c ∈ chunks)) = true ∧
    cap_chunks chunks = cap_chunks chunks := by
  have hcap : cap_chunks chunks = random_sample chunks 5000 := by
    unfold cap_chunks
    rw [if_pos (by omega)]
  refine ⟨?_, ?_, rfl⟩
  · rw [hcap]
    exact sampleGo_length 5000 42 chunks (by omega)
  · apply List.all_eq_true.mpr
    intro c hc
    exact decide_eq_true (mem_cap_chunks hc)

/-- A chunk list one past the cap, for the C6 witness. -/
def manyChunks : List PDoc :=
  (List.range 5001).map (fun i =>
    { content := toString i, srcPath := ["f"], source := "/corpus/f",
      doc_type := "root_files", project := none })

lemma manyChunks_length : manyChunks.length = 5001 := by
  unfold manyChunks
  rw [List.length_map, List.length_range]

/-- Witness for C6 at a 5001-chunk list. -/
theorem chunk_cap_down_sample_witness :
    5000 < manyChunks.length ∧
    ((cap_chunks manyChunks).length = 5000 ∧
     (cap_chunks manyChunks).all (fun c => decide (c ∈ manyChunks)) = true ∧
     cap_chunks manyChunks = cap_chunks manyChunks) :=
  ⟨by rw [manyChunks_length]; omega,
   chunk_cap_down_sample manyChunks (by rw [manyChunks_length]; omega)⟩

end KnowledgeWorker
